import Mathlib

/-!
Shallow embedding of `src/index.ts` of the mongo-mcp repository:
the output bounding engine (`truncateForOutput` / inner `truncateValue`),
the response formatter (`formatJsonOutput`), and the connection registry
(`getMongoUri` / `ensureConnection`), together with proofs settling the
specification claims about them.

Modelling conventions:
* JavaScript JSON-like values become the inductive `TreeValue`; object
  property enumeration order is the order of the key/value list.
* `JSON.stringify` (compact, as used for the size pre-check) and
  `JSON.stringify(_, null, 2)` (indented, as used for display) are embedded
  as `stringifyCompact` and `stringifyIndent`; JavaScript string length
  (UTF-16 code units) is modelled as character count.
* The two `String.replace` calls with global regexes are embedded as the
  character-list scanners `scanItems` and `scanProps`, which implement the
  leftmost, greedy-digit matching those regexes perform.
-/

set_option maxRecDepth 10000

namespace MongoMcp

/-- The recursive value type the bounding engine operates on: decoded JSON
documents (null, booleans, numbers, text, arrays, objects). Object key
order is the JavaScript property enumeration order. -/
inductive TreeValue where
  | null : TreeValue
  | bool (b : Bool) : TreeValue
  | num (n : Int) : TreeValue
  | str (s : String) : TreeValue
  | arr (xs : List TreeValue) : TreeValue
  | obj (kvs : List (String × TreeValue)) : TreeValue

/-- JSON string escaping of one character, as `JSON.stringify` performs it:
the two-character escapes for quote, backslash and the common control
characters, `\u00XX` for the remaining control characters, and the
character itself otherwise. -/
def jsonEscapeChar (c : Char) : List Char :=
  if c = '"' then ['\\', '"']
  else if c = '\\' then ['\\', '\\']
  else if c = '\n' then ['\\', 'n']
  else if c = '\r' then ['\\', 'r']
  else if c = '\t' then ['\\', 't']
  else if c = '\x08' then ['\\', 'b']
  else if c = '\x0c' then ['\\', 'f']
  else if c.toNat < 32 then
    ['\\', 'u', '0', '0', hexDigit (c.toNat / 16), hexDigit (c.toNat % 16)]
  else [c]
where
  hexDigit (n : Nat) : Char :=
    if n < 10 then Char.ofNat (48 + n) else Char.ofNat (87 + n)

/-- Escape every character of a string body. -/
def escapeChars : List Char → List Char
  | [] => []
  | c :: cs => jsonEscapeChar c ++ escapeChars cs

/-- Serialized form of a JSON string: quote, escaped body, quote. -/
def quoteStr (s : String) : String :=
  "\"" ++ String.mk (escapeChars s.data) ++ "\""

/-- Join serialized fragments with a separator, as `Array.prototype.join`
does for the fragments `JSON.stringify` produces. -/
def joinWith (sep : String) : List String → String
  | [] => ""
  | [x] => x
  | x :: y :: rest => x ++ sep ++ joinWith sep (y :: rest)

mutual

/-- Compact `JSON.stringify(value)`, used by `truncateForOutput` for its
size pre-check (`JSON.stringify(obj).length`). -/
def stringifyCompact : TreeValue → String
  | .null => "null"
  | .bool true => "true"
  | .bool false => "false"
  | .num n => toString n
  | .str s => quoteStr s
  | .arr xs => "[" ++ joinWith "," (stringifyCompactList xs) ++ "]"
  | .obj kvs => "\x7b" ++ joinWith "," (stringifyCompactPairs kvs) ++ "\x7d"

/-- Compact serialization of each array element. -/
def stringifyCompactList : List TreeValue → List String
  | [] => []
  | x :: xs => stringifyCompact x :: stringifyCompactList xs

/-- Compact serialization of each `"key":value` member. -/
def stringifyCompactPairs : List (String × TreeValue) → List String
  | [] => []
  | (k, v) :: rest => (quoteStr k ++ ":" ++ stringifyCompact v) :: stringifyCompactPairs rest

end

/-- A JavaScript property assignment `result[k] = v` on an object whose
entries are kept in enumeration order: when `k` is already a key, its
value is overwritten in place (entry count and key order unchanged);
otherwise the new entry is appended at the end. -/
def setKey : List (String × TreeValue) → String → TreeValue → List (String × TreeValue)
  | [], k, v => [(k, v)]
  | (k', v') :: rest, k, v =>
    if k' = k then (k', v) :: rest else (k', v') :: setKey rest k v

mutual

/-- The inner recursive rewrite of `truncateForOutput` (`truncateValue` in
`src/index.ts`): strings longer than 200 characters become a
string-truncation marker; arrays of length at least 2 keep the bounded
first element plus an array-truncation marker; objects keep at most their
first 200 keys (values bounded) and then assign the object-truncation
marker key (a JS property write, which overwrites in place when the
marker key is already among the retained keys); every other value passes
through unchanged. -/
def truncateValue : TreeValue → TreeValue
  | .null => .null
  | .bool b => .bool b
  | .num n => .num n
  | .str s =>
    if 200 < s.length then
      .str (String.mk (s.data.take 200) ++ "..." ++ toString (s.length - 200) ++
        " more characters")
    else .str s
  | .arr [] => .arr []
  | .arr [x] => .arr [truncateValue x]
  | .arr (x :: _ :: rest) =>
    .arr [truncateValue x, .str ("..." ++ toString (rest.length + 1) ++ " more items")]
  | .obj kvs =>
    if kvs.length ≤ 200 then .obj (truncatePairs kvs)
    else
      .obj (setKey ((truncatePairs kvs).take 200)
        ("..." ++ toString (kvs.length - 200) ++ " more properties") (.str "..."))

/-- Bound each value of an object's key/value list in place. -/
def truncatePairs : List (String × TreeValue) → List (String × TreeValue)
  | [] => []
  | (k, v) :: rest => (k, truncateValue v) :: truncatePairs rest

end

/-- `truncateForOutput` from `src/index.ts`: measure the compact
serialization; return the value unchanged when it fits the budget
(default 25000), otherwise apply the recursive structural rewrite. -/
def truncateForOutput (obj : TreeValue) (maxOutputLength : Nat := 25000) : TreeValue :=
  if (stringifyCompact obj).length ≤ maxOutputLength then obj
  else truncateValue obj

/-- An indentation string of `n` spaces. -/
def pad (n : Nat) : String := String.mk (List.replicate n ' ')

mutual

/-- Indented `JSON.stringify(value, null, 2)` at nesting indentation `ind`,
used by `formatJsonOutput` to render the bounded value. -/
def stringifyIndent (ind : Nat) : TreeValue → String
  | .null => "null"
  | .bool true => "true"
  | .bool false => "false"
  | .num n => toString n
  | .str s => quoteStr s
  | .arr [] => "[]"
  | .arr (x :: xs) =>
    "[\n" ++ joinWith ",\n" (stringifyIndentList (ind + 2) (x :: xs)) ++ "\n" ++ pad ind ++ "]"
  | .obj [] => "\x7b\x7d"
  | .obj (kv :: kvs) =>
    "\x7b\n" ++ joinWith ",\n" (stringifyIndentPairs (ind + 2) (kv :: kvs)) ++ "\n" ++
      pad ind ++ "\x7d"

/-- Indented serialization of each array element, each on its own line. -/
def stringifyIndentList (ind : Nat) : List TreeValue → List String
  | [] => []
  | x :: xs => (pad ind ++ stringifyIndent ind x) :: stringifyIndentList ind xs

/-- Indented serialization of each `"key": value` member line. -/
def stringifyIndentPairs (ind : Nat) : List (String × TreeValue) → List String
  | [] => []
  | (k, v) :: rest =>
    (pad ind ++ quoteStr k ++ ": " ++ stringifyIndent ind v) :: stringifyIndentPairs ind rest

end

/-- Does the pattern `p` occur literally at the head of `s`? -/
def startsWith : List Char → List Char → Bool
  | [], _ => true
  | _ :: _, [] => false
  | p :: ps, c :: cs => p = c && startsWith ps cs

/-- The literal opening of both marker regexes: a quote followed by three
dots (`"\.\.\.` in the source patterns). -/
def markerPre : List Char := ['"', '.', '.', '.']

/-- The literal tail of the array-marker regex after the digits:
` more items` followed by the closing quote. -/
def itemsSuffix : List Char := (" more items\"").data

/-- The literal middle of the object-marker regex after the digits:
` more properties": "` followed by two dots (`\.\.` in the pattern). -/
def propsMid : List Char := (" more properties\": \"..").data

/-- Attempt to match the regex `/"\.\.\.(\d+) more items"/` at the head of
`s`: the literal opening, a maximal nonempty digit run (the capture), then
the literal tail. Returns the captured digits and the remaining input. -/
def matchItemsAt (s : List Char) : Option (List Char × List Char) :=
  if startsWith markerPre s then
    let r := s.drop markerPre.length
    let ds := r.takeWhile Char.isDigit
    let tail := r.drop ds.length
    if ds.isEmpty then none
    else if startsWith itemsSuffix tail then some (ds, tail.drop itemsSuffix.length)
    else none
  else none

/-- Attempt to match the regex `/"\.\.\.(\d+) more properties": "\.\.\.?"/`
at the head of `s`: the literal opening, a maximal nonempty digit run (the
capture), the literal middle, then (greedily) an optional third dot and the
closing quote. Returns the captured digits and the remaining input. -/
def matchPropsAt (s : List Char) : Option (List Char × List Char) :=
  if startsWith markerPre s then
    let r := s.drop markerPre.length
    let ds := r.takeWhile Char.isDigit
    let tail := r.drop ds.length
    if ds.isEmpty then none
    else if startsWith propsMid tail then
      let t2 := tail.drop propsMid.length
      if startsWith ['.', '"'] t2 then some (ds, t2.drop 2)
      else if startsWith ['"'] t2 then some (ds, t2.drop 1)
      else none
    else none
  else none

/-- Replacement text `...$1 more items` for a captured digit run. -/
def itemsReplacement (ds : List Char) : List Char :=
  ('.' :: '.' :: '.' :: ds) ++ (" more items").data

/-- Replacement text `...$1 more properties` for a captured digit run. -/
def propsReplacement (ds : List Char) : List Char :=
  ('.' :: '.' :: '.' :: ds) ++ (" more properties").data

/-- The first `String.replace` pass of `formatJsonOutput`: scan left to
right, rewriting every non-overlapping match of the array-marker regex to
its unquoted replacement and copying every other character. -/
def scanItems (s : List Char) : List Char :=
  match s with
  | [] => []
  | c :: cs =>
    match h : matchItemsAt (c :: cs) with
    | some (ds, rest) => itemsReplacement ds ++ scanItems rest
    | none => c :: scanItems cs
termination_by s.length
decreasing_by
  · have hm : markerPre.length = 4 := rfl
    simp only [matchItemsAt] at h
    split_ifs at h with h1 h2 h3
    rw [Option.some.injEq, Prod.mk.injEq] at h
    obtain ⟨h4, h5⟩ := h
    subst h5
    simp only [List.length_drop, List.length_cons, hm]
    omega
  · simp only [List.length_cons]
    omega

/-- The second `String.replace` pass of `formatJsonOutput`: the same scan
for the object-marker regex. -/
def scanProps (s : List Char) : List Char :=
  match s with
  | [] => []
  | c :: cs =>
    match h : matchPropsAt (c :: cs) with
    | some (ds, rest) => propsReplacement ds ++ scanProps rest
    | none => c :: scanProps cs
termination_by s.length
decreasing_by
  · have hm : markerPre.length = 4 := rfl
    simp only [matchPropsAt] at h
    split_ifs at h with h1 h2 h3 h4 h5
    · rw [Option.some.injEq, Prod.mk.injEq] at h
      obtain ⟨h6, h7⟩ := h
      subst h7
      simp only [List.length_drop, List.length_cons, hm]
      omega
    · rw [Option.some.injEq, Prod.mk.injEq] at h
      obtain ⟨h6, h7⟩ := h
      subst h7
      simp only [List.length_drop, List.length_cons, hm]
      omega
  · simp only [List.length_cons]
    omega

/-- `formatJsonOutput` from `src/index.ts`: bound the value, serialize it
with two-space indentation, then rewrite the two marker encodings from
their quoted serialized form into unquoted inline annotations. -/
def formatJsonOutput (data : TreeValue) : String :=
  let truncatedData := truncateForOutput data
  let outputText := stringifyIndent 0 truncatedData
  String.mk (scanProps (scanItems outputText.data))

/-- The driver client handle, identified by the URI it was built from. -/
structure MongoClientModel where
  uri : String

/-- A per-database driver handle, identified by client URI and name. -/
structure DbModel where
  uri : String
  name : String

/-- The module-level mutable state of `src/index.ts`: the lazily created
`mongoClient` and the `databases` name-to-handle cache (a `Map`, whose
entries are kept in insertion order). -/
structure RegistryState where
  mongoClient : Option MongoClientModel
  databases : List (String × DbModel)

/-- The driver calls `ensureConnection` can issue, recorded as a trace:
`connect` for `new MongoClient(uri)` / `mongoClient.connect()`, and
`getDb` for `mongoClient.db(dbName)`. -/
inductive DriverCall where
  | connect (uri : String)
  | getDb (dbName : String)

/-- `getMongoUri` from `src/index.ts`: read `process.env.MONGODB_URI` and
throw when it is falsy (absent or the empty string). The environment is
modelled as `Option String` (`none` = variable absent). -/
def getMongoUri (env : Option String) : Except String String :=
  match env with
  | none => .error "MONGODB_URI environment variable is not set"
  | some uri =>
    if uri = "" then .error "MONGODB_URI environment variable is not set"
    else .ok uri

/-- The shared tail of `ensureConnection` once a client exists: look
`dbName` up in the cache, creating and caching the handle (a `getDb`
driver call) on a miss. -/
def lookupOrCreateDb (client : MongoClientModel) (st : RegistryState)
    (calls : List DriverCall) (dbName : String) :
    Except String DbModel × RegistryState × List DriverCall :=
  match st.databases.lookup dbName with
  | some db => (.ok db, st, calls)
  | none =>
    let db : DbModel := ⟨client.uri, dbName⟩
    (.ok db, ⟨st.mongoClient, st.databases ++ [(dbName, db)]⟩,
      calls ++ [DriverCall.getDb dbName])

/-- `ensureConnection` from `src/index.ts`, with the environment and the
module state passed explicitly and driver calls recorded as a trace: when
no client exists yet, read the URI (propagating its error with the state
untouched and no driver call issued) and create/connect the client; then
serve `dbName` from the handle cache, filling it on a miss. -/
def ensureConnection (env : Option String) (st : RegistryState) (dbName : String) :
    Except String DbModel × RegistryState × List DriverCall :=
  match st.mongoClient with
  | none =>
    match getMongoUri env with
    | .error e => (.error e, st, [])
    | .ok uri =>
      let client : MongoClientModel := ⟨uri⟩
      lookupOrCreateDb client ⟨some client, st.databases⟩ [DriverCall.connect uri] dbName
  | some client => lookupOrCreateDb client st [] dbName

/-- JavaScript truthiness of the optional numeric `limit` parameter:
`if (limit)` is taken exactly when `limit` is present and nonzero. -/
def numberTruthy (l : Int) : Bool := l != 0

/-- Modelled from the spec: the driver cursor cap (`cursor.limit(n)` and
`cursor.toArray()` belong to the external mongodb driver, specified only
as "find, optionally capped") — a positive cap keeps at most the first
`n` matching documents. -/
def cursorLimit (docs : List TreeValue) (l : Int) : List TreeValue :=
  docs.take l.toNat

/-- The document list the `mongo-find-documents` handler receives from
`cursor.toArray()`: the matching documents, capped only when the handler
executed `cursor.limit(limit)`, which it does exactly when `limit` is
truthy. -/
def findDocumentsResult (matching : List TreeValue) (limit : Option Int) : List TreeValue :=
  match limit with
  | none => matching
  | some l => if numberTruthy l then cursorLimit matching l else matching

/-- The success text of the `mongo-find-documents` handler:
`Found $\x7bdocuments.length\x7d document(s):` followed by the formatted
bounded array. -/
def findDocumentsText (matching : List TreeValue) (limit : Option Int) : String :=
  let documents := findDocumentsResult matching limit
  "Found " ++ toString documents.length ++ " document(s):\n\n" ++
    formatJsonOutput (.arr documents)

/-- A tower of `d` nested one-element arrays around `null`: a well-formed
TreeValue of serialized size `2 * d + 4` used as an adversarial input. -/
def arrNest : Nat → TreeValue
  | 0 => .null
  | d + 1 => .arr [arrNest d]

/-- A plain text scalar of `n` repeated letters. -/
def aStr (n : Nat) : String := String.mk (List.replicate n 'a')

/-- A tower of `d` nested one-element arrays around a 201-character text
scalar: an adversarial input whose bounded form grows. -/
def strNest : Nat → TreeValue
  | 0 => .str (aStr 201)
  | d + 1 => .arr [strNest d]

/-- A 201-key object whose first key is literally the synthetic marker key
`...1 more properties` that its own truncation produces (the remaining 200
keys are the non-numeric names `k0`, `k1`, ...): the marker-key collision
input. -/
def collideObj : List (String × TreeValue) :=
  ("...1 more properties", .null) ::
    (List.range 200).map (fun i => ("k" ++ toString i, TreeValue.null))

/-- The string-truncation marker the rewrite pass produces for an
over-long string: its first 200 characters followed by the elision
notice. -/
def markerOf (s : String) : String :=
  String.mk (s.data.take 200) ++ "..." ++ toString (s.length - 200) ++ " more characters"

/-- A tower of `d` nested one-element arrays around an arbitrary text
scalar. -/
def strTower (s : String) : Nat → TreeValue
  | 0 => .str s
  | d + 1 => .arr [strTower s d]

/-- The 220-character marker produced by bounding a 201-character text
scalar once. -/
def mkr1 : String := markerOf (aStr 201)

/-- The 221-character marker produced by bounding `mkr1` again. -/
def mkr2 : String := markerOf mkr1

/-- An already-bounded TreeValue (the image of the bounding pass on
`strNest 12400`) whose compact serialization still exceeds the default
budget. -/
def vBounded : TreeValue := truncateValue (strNest 12400)

/-- Scans a character list for an occurrence of a double quote immediately
followed by a dot — the two-character opening every marker-regex match
needs. `true` means no such pair occurs. -/
def noQuoteDot : List Char → Bool
  | [] => true
  | [_] => true
  | c1 :: c2 :: rest => !(c1 = '"' && c2 = '.') && noQuoteDot (c2 :: rest)

/-- The serialized quoted form of an array-truncation marker with digit
run `ds`: what `JSON.stringify` emits for the marker string
`...$\x7bremaining\x7d more items`. -/
def quotedItemsMarker (ds : List Char) : List Char :=
  '"' :: '.' :: '.' :: '.' :: (ds ++ itemsSuffix)

/-- The serialized quoted form of an object-truncation marker entry with
digit run `ds`: the marker key/value pair
`"...N more properties": "..."` as `JSON.stringify` emits it. -/
def quotedPropsMarker (ds : List Char) : List Char :=
  '"' :: '.' :: '.' :: '.' :: (ds ++ propsMid ++ '.' :: '"' :: [])

/-! Helper lemmas -/

theorem truncatePairs_eq_map (kvs : List (String × TreeValue)) :
    truncatePairs kvs = kvs.map (fun kv => (kv.1, truncateValue kv.2)) := by
  induction kvs with
  | nil => rfl
  | cons kv rest ih => cases kv; simp [truncatePairs, ih]

theorem setKey_of_not_mem (l : List (String × TreeValue)) (k : String) (v : TreeValue)
    (h : k ∉ l.map Prod.fst) : setKey l k v = l ++ [(k, v)] := by
  induction l with
  | nil => rfl
  | cons kv rest ih =>
    cases kv with
    | mk k' v' =>
      rw [List.map_cons] at h
      have h1 : k' ≠ k := by
        intro he
        subst he
        exact h (List.mem_cons_self _ _)
      have h2 : k ∉ rest.map Prod.fst := fun hm => h (List.mem_cons_of_mem _ hm)
      simp [setKey, h1, ih h2]

theorem setKey_mem_length (l : List (String × TreeValue)) (k : String) (v : TreeValue)
    (h : k ∈ l.map Prod.fst) :
    (setKey l k v).length = l.length ∧
    (setKey l k v).map Prod.fst = l.map Prod.fst := by
  induction l with
  | nil => simp at h
  | cons kv rest ih =>
    cases kv with
    | mk k' v' =>
      by_cases he : k' = k
      · simp [setKey, he]
      · rw [List.map_cons] at h
        have h2 : k ∈ rest.map Prod.fst := by
          rcases List.mem_cons.mp h with h3 | h3
          · exact absurd h3.symm he
          · exact h3
        simp [setKey, he, (ih h2).1, (ih h2).2]

theorem stringifyCompact_singleton (x : TreeValue) :
    stringifyCompact (.arr [x]) = "[" ++ stringifyCompact x ++ "]" := by
  simp [stringifyCompact, stringifyCompactList, joinWith]

theorem stringifyCompact_arrNest (d : Nat) :
    (stringifyCompact (arrNest d)).length = 2 * d + 4 := by
  induction d with
  | zero => rfl
  | succ d ih =>
    have h1 : arrNest (d + 1) = .arr [arrNest d] := rfl
    have hb : ("[" : String).length = 1 := rfl
    have he : ("]" : String).length = 1 := rfl
    rw [h1, stringifyCompact_singleton, String.length_append, String.length_append, ih, hb, he]
    omega

theorem truncateValue_arrNest (d : Nat) :
    truncateValue (arrNest d) = arrNest d := by
  induction d with
  | zero => rfl
  | succ d ih => simp [arrNest, truncateValue, ih]

theorem escapeChars_append (l1 l2 : List Char) :
    escapeChars (l1 ++ l2) = escapeChars l1 ++ escapeChars l2 := by
  induction l1 with
  | nil => rfl
  | cons c cs ih => simp [escapeChars, ih]

theorem escapeChars_replicate_a (n : Nat) :
    escapeChars (List.replicate n 'a') = List.replicate n 'a' := by
  induction n with
  | zero => rfl
  | succ n ih => simp [List.replicate_succ, escapeChars, ih, jsonEscapeChar]

theorem aStr_length (n : Nat) : (aStr n).length = n := by
  show (List.replicate n 'a').length = n
  simp

theorem quoteStr_aStr_length (n : Nat) : (quoteStr (aStr n)).length = n + 2 := by
  have hdata : (aStr n).data = List.replicate n 'a' := rfl
  have h1 : quoteStr (aStr n) = "\"" ++ aStr n ++ "\"" := by
    unfold quoteStr
    rw [hdata, escapeChars_replicate_a]
    rfl
  have hq : ("\"" : String).length = 1 := rfl
  rw [h1, String.length_append, String.length_append, aStr_length, hq]
  omega

theorem stringifyCompact_strNest (d : Nat) :
    (stringifyCompact (strNest d)).length = 2 * d + 203 := by
  induction d with
  | zero => simp [strNest, stringifyCompact, quoteStr_aStr_length]
  | succ d ih =>
    have h1 : strNest (d + 1) = .arr [strNest d] := rfl
    have hb : ("[" : String).length = 1 := rfl
    have he : ("]" : String).length = 1 := rfl
    rw [h1, stringifyCompact_singleton, String.length_append, String.length_append, ih, hb, he]
    omega

theorem truncateValue_strNest_zero :
    truncateValue (strNest 0) = .str (aStr 200 ++ "...1 more characters") := by
  have h201 : (aStr 201).length = 201 := aStr_length 201
  have hlt : 200 < (aStr 201).length := by omega
  simp only [strNest, truncateValue, if_pos hlt, h201]
  have htake : (aStr 201).data.take 200 = List.replicate 200 'a' := by
    simp [aStr, List.take_replicate]
  rw [htake]
  rfl

theorem truncateValue_strNest_length (d : Nat) :
    (stringifyCompact (truncateValue (strNest d))).length = 2 * d + 222 := by
  induction d with
  | zero =>
    rw [truncateValue_strNest_zero]
    have : ((aStr 200 ++ "...1 more characters") : String).data =
        List.replicate 200 'a' ++ ("...1 more characters").data := by
      simp [aStr]
    simp [stringifyCompact, quoteStr, String.length_append, String.length, this,
      escapeChars_append, escapeChars_replicate_a]
    rfl
  | succ d ih =>
    have : truncateValue (strNest (d + 1)) = .arr [truncateValue (strNest d)] := by
      simp [strNest, truncateValue]
    rw [this, stringifyCompact_singleton]
    have hb : ("[" : String).length = 1 := rfl
    have he : ("]" : String).length = 1 := rfl
    rw [String.length_append, String.length_append, ih, hb, he]
    omega

theorem matchItemsAt_nil : matchItemsAt [] = none := rfl

theorem matchPropsAt_nil : matchPropsAt [] = none := rfl

theorem startsWith_markerPre_cons_ne {c : Char} {cs : List Char} (h : c ≠ '"') :
    startsWith markerPre (c :: cs) = false := by
  have h2 : ('"' : Char) ≠ c := Ne.symm h
  simp [markerPre, startsWith, h2]

theorem matchItemsAt_cons_ne {c : Char} {cs : List Char} (h : c ≠ '"') :
    matchItemsAt (c :: cs) = none := by
  rw [matchItemsAt, startsWith_markerPre_cons_ne h]
  rfl

theorem matchPropsAt_cons_ne {c : Char} {cs : List Char} (h : c ≠ '"') :
    matchPropsAt (c :: cs) = none := by
  rw [matchPropsAt, startsWith_markerPre_cons_ne h]
  rfl

theorem scanItems_nil : scanItems [] = [] := by rw [scanItems]

theorem scanProps_nil : scanProps [] = [] := by rw [scanProps]

theorem scanItems_eq_of_match {s ds rest : List Char}
    (h : matchItemsAt s = some (ds, rest)) :
    scanItems s = itemsReplacement ds ++ scanItems rest := by
  cases s with
  | nil => rw [matchItemsAt_nil] at h; cases h
  | cons c cs =>
    rw [scanItems]
    split
    · next ds' rest' h' => rw [h'] at h; injection h with h2; injection h2 with h3 h4; rw [h3, h4]
    · next h' => rw [h'] at h; cases h

theorem scanItems_eq_of_none {c : Char} {cs : List Char}
    (h : matchItemsAt (c :: cs) = none) :
    scanItems (c :: cs) = c :: scanItems cs := by
  rw [scanItems]
  split
  · next ds' rest' h' => rw [h'] at h; cases h
  · next h' => rfl

theorem scanProps_eq_of_match {s ds rest : List Char}
    (h : matchPropsAt s = some (ds, rest)) :
    scanProps s = propsReplacement ds ++ scanProps rest := by
  cases s with
  | nil => rw [matchPropsAt_nil] at h; cases h
  | cons c cs =>
    rw [scanProps]
    split
    · next ds' rest' h' => rw [h'] at h; injection h with h2; injection h2 with h3 h4; rw [h3, h4]
    · next h' => rw [h'] at h; cases h

theorem scanProps_eq_of_none {c : Char} {cs : List Char}
    (h : matchPropsAt (c :: cs) = none) :
    scanProps (c :: cs) = c :: scanProps cs := by
  rw [scanProps]
  split
  · next ds' rest' h' => rw [h'] at h; cases h
  · next h' => rfl

theorem takeWhile_append_all {p : Char → Bool} (l1 l2 : List Char)
    (h : ∀ c ∈ l1, p c) : (l1 ++ l2).takeWhile p = l1 ++ l2.takeWhile p := by
  induction l1 with
  | nil => rfl
  | cons c cs ih =>
    have hc : p c = true := h c (List.mem_cons_self c cs)
    have ih2 := ih (fun d hd => h d (List.mem_cons_of_mem c hd))
    simp [List.takeWhile_cons, hc, ih2]

theorem startsWith_append_self (p l : List Char) : startsWith p (p ++ l) = true := by
  induction p with
  | nil => rfl
  | cons c cs ih => simp [startsWith, ih]

theorem isEmpty_false_of_ne_nil {l : List Char} (h : l ≠ []) : l.isEmpty = false := by
  cases l with
  | nil => exact absurd rfl h
  | cons c cs => rfl

theorem matchItemsAt_marker (ds rest : List Char) (hne : ds ≠ [])
    (hd : ∀ c ∈ ds, Char.isDigit c) :
    matchItemsAt (quotedItemsMarker ds ++ rest) = some (ds, rest) := by
  have hT : quotedItemsMarker ds ++ rest =
      '"' :: '.' :: '.' :: '.' :: (ds ++ (itemsSuffix ++ rest)) := by
    simp [quotedItemsMarker]
  have hstart : startsWith markerPre
      ('"' :: '.' :: '.' :: '.' :: (ds ++ (itemsSuffix ++ rest))) = true := by
    simp [startsWith, markerPre]
  have hdrop4 : ('"' :: '.' :: '.' :: '.' :: (ds ++ (itemsSuffix ++ rest))).drop
      markerPre.length = ds ++ (itemsSuffix ++ rest) := rfl
  have hsufTW : (itemsSuffix ++ rest).takeWhile Char.isDigit = [] := by
    have hcons : itemsSuffix ++ rest = ' ' :: (("more items\"").data ++ rest) := rfl
    have hsp : Char.isDigit ' ' = false := rfl
    rw [hcons, List.takeWhile_cons, hsp]
    simp
  have htw : (ds ++ (itemsSuffix ++ rest)).takeWhile Char.isDigit = ds := by
    rw [takeWhile_append_all _ _ hd, hsufTW, List.append_nil]
  have hie : ds.isEmpty = false := isEmpty_false_of_ne_nil hne
  rw [hT, matchItemsAt, hstart]
  simp only [if_true, hdrop4, htw, hie, Bool.false_eq_true, if_false]
  rw [List.drop_left, startsWith_append_self]
  simp only [if_true, List.drop_left]

theorem matchPropsAt_marker (ds rest : List Char) (hne : ds ≠ [])
    (hd : ∀ c ∈ ds, Char.isDigit c) :
    matchPropsAt (quotedPropsMarker ds ++ rest) = some (ds, rest) := by
  have hT : quotedPropsMarker ds ++ rest =
      '"' :: '.' :: '.' :: '.' :: (ds ++ (propsMid ++ ('.' :: '"' :: rest))) := by
    simp [quotedPropsMarker]
  have hstart : startsWith markerPre
      ('"' :: '.' :: '.' :: '.' :: (ds ++ (propsMid ++ ('.' :: '"' :: rest)))) = true := by
    simp [startsWith, markerPre]
  have hdrop4 : ('"' :: '.' :: '.' :: '.' :: (ds ++ (propsMid ++ ('.' :: '"' :: rest)))).drop
      markerPre.length = ds ++ (propsMid ++ ('.' :: '"' :: rest)) := rfl
  have hsufTW : (propsMid ++ ('.' :: '"' :: rest)).takeWhile Char.isDigit = [] := by
    have hcons : propsMid ++ ('.' :: '"' :: rest) =
        ' ' :: (("more properties\": \"..").data ++ ('.' :: '"' :: rest)) := rfl
    have hsp : Char.isDigit ' ' = false := rfl
    rw [hcons, List.takeWhile_cons, hsp]
    simp
  have htw : (ds ++ (propsMid ++ ('.' :: '"' :: rest))).takeWhile Char.isDigit = ds := by
    rw [takeWhile_append_all _ _ hd, hsufTW, List.append_nil]
  have hie : ds.isEmpty = false := isEmpty_false_of_ne_nil hne
  have hdq : startsWith ['.', '"'] ('.' :: '"' :: rest) = true := by
    simp [startsWith]
  rw [hT, matchPropsAt, hstart]
  simp only [if_true, hdrop4, htw, hie, Bool.false_eq_true, if_false]
  rw [List.drop_left, startsWith_append_self]
  simp only [if_true, List.drop_left, hdq]
  rfl

theorem scanItems_id_of_no_match (s : List Char)
    (h : ∀ t, t <:+ s → matchItemsAt t = none) : scanItems s = s := by
  induction s with
  | nil => exact scanItems_nil
  | cons c cs ih =>
    rw [scanItems_eq_of_none (h (c :: cs) (List.suffix_refl _)),
      ih (fun t ht => h t (ht.trans (List.suffix_cons c cs)))]

theorem scanProps_id_of_no_match (s : List Char)
    (h : ∀ t, t <:+ s → matchPropsAt t = none) : scanProps s = s := by
  induction s with
  | nil => exact scanProps_nil
  | cons c cs ih =>
    rw [scanProps_eq_of_none (h (c :: cs) (List.suffix_refl _)),
      ih (fun t ht => h t (ht.trans (List.suffix_cons c cs)))]

theorem matchItemsAt_none_of_no_quote {s t : List Char}
    (h : ∀ c ∈ s, c ≠ '"') (ht : t <:+ s) : matchItemsAt t = none := by
  cases t with
  | nil => exact matchItemsAt_nil
  | cons c cs => exact matchItemsAt_cons_ne (h c (ht.subset (List.mem_cons_self c cs)))

theorem matchPropsAt_none_of_no_quote {s t : List Char}
    (h : ∀ c ∈ s, c ≠ '"') (ht : t <:+ s) : matchPropsAt t = none := by
  cases t with
  | nil => exact matchPropsAt_nil
  | cons c cs => exact matchPropsAt_cons_ne (h c (ht.subset (List.mem_cons_self c cs)))

theorem scanItems_marker_context (pre ds rest : List Char)
    (hpre : ∀ c ∈ pre, c ≠ '"') (hne : ds ≠ [])
    (hd : ∀ c ∈ ds, Char.isDigit c) :
    scanItems (pre ++ (quotedItemsMarker ds ++ rest)) =
      pre ++ (itemsReplacement ds ++ scanItems rest) := by
  induction pre with
  | nil =>
    simp only [List.nil_append]
    exact scanItems_eq_of_match (matchItemsAt_marker ds rest hne hd)
  | cons c pre' ih =>
    have hc : c ≠ '"' := hpre c (List.mem_cons_self c pre')
    rw [List.cons_append, scanItems_eq_of_none (matchItemsAt_cons_ne hc),
      ih (fun d hd' => hpre d (List.mem_cons_of_mem c hd')), List.cons_append]

theorem scanProps_marker_context (pre ds rest : List Char)
    (hpre : ∀ c ∈ pre, c ≠ '"') (hne : ds ≠ [])
    (hd : ∀ c ∈ ds, Char.isDigit c) :
    scanProps (pre ++ (quotedPropsMarker ds ++ rest)) =
      pre ++ (propsReplacement ds ++ scanProps rest) := by
  induction pre with
  | nil =>
    simp only [List.nil_append]
    exact scanProps_eq_of_match (matchPropsAt_marker ds rest hne hd)
  | cons c pre' ih =>
    have hc : c ≠ '"' := hpre c (List.mem_cons_self c pre')
    rw [List.cons_append, scanProps_eq_of_none (matchPropsAt_cons_ne hc),
      ih (fun d hd' => hpre d (List.mem_cons_of_mem c hd')), List.cons_append]

theorem pad_length (n : Nat) : (pad n).length = n := by
  show (List.replicate n ' ').length = n
  simp

theorem pad_no_quote (n : Nat) : ∀ c ∈ (pad n).data, c ≠ '"' := by
  intro c hc
  have : c = ' ' := by
    have hrep : (pad n).data = List.replicate n ' ' := rfl
    rw [hrep] at hc
    exact (List.eq_of_mem_replicate hc)
  rw [this]
  decide

theorem getLast?_ne_quote_of_no_quote {l : List Char} (h : ∀ c ∈ l, c ≠ '"') :
    l.getLast? ≠ some '"' := by
  induction l with
  | nil => simp
  | cons c cs ih =>
    cases cs with
    | nil =>
      have hc : c ≠ '"' := h c (List.mem_cons_self _ _)
      simpa using hc
    | cons c2 rest =>
      rw [List.getLast?_cons_cons]
      exact ih (fun d hd => h d (List.mem_cons_of_mem _ hd))

theorem noQuoteDot_tail {c : Char} {cs : List Char}
    (h : noQuoteDot (c :: cs) = true) : noQuoteDot cs = true := by
  cases cs with
  | nil => rfl
  | cons c2 rest =>
    simp [noQuoteDot] at h
    simp [h.2]

theorem noQuoteDot_of_no_quote {l : List Char} (h : ∀ c ∈ l, c ≠ '"') :
    noQuoteDot l = true := by
  induction l with
  | nil => rfl
  | cons c cs ih =>
    cases cs with
    | nil => rfl
    | cons c2 rest =>
      have hc : c ≠ '"' := h c (List.mem_cons_self _ _)
      have hrest : noQuoteDot (c2 :: rest) = true :=
        ih (fun d hd => h d (List.mem_cons_of_mem _ hd))
      simp [noQuoteDot, hc, hrest]

theorem noQuoteDot_append {l1 l2 : List Char} (h1 : noQuoteDot l1 = true)
    (h2 : noQuoteDot l2 = true)
    (hb : l1.getLast? ≠ some '"' ∨ l2.head? ≠ some '.') :
    noQuoteDot (l1 ++ l2) = true := by
  induction l1 with
  | nil => simpa using h2
  | cons c rest ih =>
    cases rest with
    | nil =>
      cases l2 with
      | nil => rfl
      | cons c2 l2' =>
        have hf : ¬ (c = '"' ∧ c2 = '.') := by
          rcases hb with hb | hb
          · intro hp
            exact hb (by simp [hp.1])
          · intro hp
            exact hb (by simp [hp.2])
        simp only [List.singleton_append, noQuoteDot, Bool.and_eq_true, Bool.not_eq_true']
        constructor
        · by_cases hc : c = '"'
          · have hc2 : c2 ≠ '.' := fun he => hf ⟨hc, he⟩
            simp [hc, hc2]
          · simp [hc]
        · exact h2
    | cons c2 rest' =>
      have h1' : noQuoteDot (c2 :: rest') = true := noQuoteDot_tail h1
      have hpair : ¬ (c = '"' ∧ c2 = '.') := by
        intro hp
        simp [noQuoteDot, hp.1, hp.2] at h1
      have hb' : (c2 :: rest').getLast? ≠ some '"' ∨ l2.head? ≠ some '.' := by
        rcases hb with hb | hb
        · left
          rwa [List.getLast?_cons_cons] at hb
        · right
          exact hb
      have hrec : noQuoteDot ((c2 :: rest') ++ l2) = true := ih h1' hb'
      have hgoal : (c :: c2 :: rest') ++ l2 = c :: c2 :: (rest' ++ l2) := by simp
      rw [hgoal]
      have hrec2 : noQuoteDot (c2 :: (rest' ++ l2)) = true := by
        simpa using hrec
      by_cases hc : c = '"'
      · have hc2 : c2 ≠ '.' := fun he => hpair ⟨hc, he⟩
        simp [noQuoteDot, hc, hc2, hrec2]
      · simp [noQuoteDot, hc, hrec2]

theorem noQuoteDot_suffix {s t : List Char} (h : noQuoteDot s = true)
    (ht : t <:+ s) : noQuoteDot t = true := by
  induction s with
  | nil =>
    rw [List.suffix_nil.mp ht]
    rfl
  | cons c cs ih =>
    rcases List.suffix_cons_iff.mp ht with he | ht'
    · rw [he]; exact h
    · exact ih (noQuoteDot_tail h) ht'

theorem startsWith_markerPre_false_of_noQuoteDot {t : List Char}
    (h : noQuoteDot t = true) : startsWith markerPre t = false := by
  match t with
  | [] => rfl
  | [c] => simp [startsWith, markerPre]
  | c1 :: c2 :: rest =>
    by_cases hc1 : c1 = '"'
    · have hc2 : c2 ≠ '.' := by
        intro he
        simp [noQuoteDot, hc1, he] at h
      have hc2' : ('.' : Char) ≠ c2 := Ne.symm hc2
      simp [startsWith, markerPre, hc2']
    · have hc1' : ('"' : Char) ≠ c1 := Ne.symm hc1
      simp [startsWith, markerPre, hc1']

theorem matchItemsAt_none_of_startsWith_false {t : List Char}
    (h : startsWith markerPre t = false) : matchItemsAt t = none := by
  rw [matchItemsAt, h]
  rfl

theorem matchPropsAt_none_of_startsWith_false {t : List Char}
    (h : startsWith markerPre t = false) : matchPropsAt t = none := by
  rw [matchPropsAt, h]
  rfl

theorem scanItems_id_of_noQuoteDot {s : List Char} (h : noQuoteDot s = true) :
    scanItems s = s :=
  scanItems_id_of_no_match s (fun t ht =>
    matchItemsAt_none_of_startsWith_false
      (startsWith_markerPre_false_of_noQuoteDot (noQuoteDot_suffix h ht)))

theorem scanProps_id_of_noQuoteDot {s : List Char} (h : noQuoteDot s = true) :
    scanProps s = s :=
  scanProps_id_of_no_match s (fun t ht =>
    matchPropsAt_none_of_startsWith_false
      (startsWith_markerPre_false_of_noQuoteDot (noQuoteDot_suffix h ht)))

theorem data_append (a b : String) : (a ++ b).data = a.data ++ b.data := rfl

theorem length_mk (l : List Char) : (String.mk l).length = l.length := rfl

theorem length_data (s : String) : s.data.length = s.length := rfl

theorem strNest_eq_strTower : ∀ d : Nat, strNest d = strTower (aStr 201) d
  | 0 => rfl
  | d + 1 => by simp [strNest, strTower, strNest_eq_strTower d]

theorem truncateValue_strTower (s : String) (hs : 200 < s.length) :
    ∀ d : Nat, truncateValue (strTower s d) = strTower (markerOf s) d
  | 0 => by
    simp only [strTower, truncateValue, if_pos hs, markerOf]
  | d + 1 => by
    simp [strTower, truncateValue, truncateValue_strTower s hs d]

theorem indent_tower_succ (M : String) (d ind : Nat) :
    stringifyIndent ind (strTower M (d + 1)) =
      "[\n" ++ (pad (ind + 2) ++ stringifyIndent (ind + 2) (strTower M d)) ++ "\n" ++
        pad ind ++ "]" := by
  simp [strTower, stringifyIndent, stringifyIndentList, joinWith]

theorem noQuoteDot_indent_tower (M : String)
    (hq : noQuoteDot (quoteStr M).data = true) :
    ∀ d ind : Nat, noQuoteDot (stringifyIndent ind (strTower M d)).data = true := by
  intro d
  induction d with
  | zero =>
    intro ind
    exact hq
  | succ d ih =>
    intro ind
    rw [indent_tower_succ]
    have hdata : ("[\n" ++ (pad (ind + 2) ++ stringifyIndent (ind + 2) (strTower M d)) ++
          "\n" ++ pad ind ++ "]").data =
        ("[\n").data ++ ((pad (ind + 2)).data ++
          ((stringifyIndent (ind + 2) (strTower M d)).data ++
            (("\n").data ++ ((pad ind).data ++ ("]").data)))) := by
      simp [data_append, List.append_assoc]
    rw [hdata]
    exact noQuoteDot_append (by decide)
      (noQuoteDot_append (noQuoteDot_of_no_quote (pad_no_quote _))
        (noQuoteDot_append (ih (ind + 2))
          (noQuoteDot_append (by decide)
            (noQuoteDot_append (noQuoteDot_of_no_quote (pad_no_quote _)) (by decide)
              (Or.inl (getLast?_ne_quote_of_no_quote (pad_no_quote _))))
            (Or.inl (by decide)))
          (Or.inr (by simp)))
        (Or.inl (getLast?_ne_quote_of_no_quote (pad_no_quote _))))
      (Or.inl (by decide))

theorem indent_tower_length (M : String) (hesc : escapeChars M.data = M.data) :
    ∀ d ind : Nat, (stringifyIndent ind (strTower M d)).length =
      M.length + 2 + 2 * d * ind + 2 * d * d + 4 * d := by
  intro d
  induction d with
  | zero =>
    intro ind
    have hquote : stringifyIndent ind (strTower M 0) = "\"" ++ String.mk M.data ++ "\"" := by
      show quoteStr M = "\"" ++ String.mk M.data ++ "\""
      unfold quoteStr
      rw [hesc]
    have h1 : ("\"" : String).length = 1 := rfl
    have h2 : (String.mk M.data).length = M.length := rfl
    rw [hquote, String.length_append, String.length_append, h1, h2]
    omega
  | succ d ih =>
    intro ind
    have hb : ("[\n" : String).length = 2 := rfl
    have hn : ("\n" : String).length = 1 := rfl
    have he : ("]" : String).length = 1 := rfl
    rw [indent_tower_succ, String.length_append, String.length_append,
      String.length_append, String.length_append, String.length_append,
      hb, hn, he, pad_length, pad_length, ih (ind + 2)]
    ring

/-! Claim theorems -/

/-- C1: for every TreeValue whose compact serialization fits the budget,
`truncateForOutput` returns the value itself unchanged. -/
theorem c1_pass_through (v : TreeValue) (budget : Nat)
    (h : (stringifyCompact v).length ≤ budget) :
    truncateForOutput v budget = v := by
  unfold truncateForOutput
  exact if_pos h

/-- C1 witness: a concrete small value passes through the default budget
unchanged. -/
theorem c1_pass_through_witness :
    truncateForOutput (.str "hello") 25000 = .str "hello" :=
  c1_pass_through (.str "hello") 25000 (by decide)

/-- C2: the rewrite pass keeps, from any array of length at least 2,
exactly the recursively bounded first element plus one marker reporting
`N - 1` dropped items, and keeps arrays of length 0 or 1 at their element
count with elements bounded in place and no marker. -/
theorem c2_array_cap :
    (∀ (x y : TreeValue) (rest : List TreeValue),
      truncateValue (.arr (x :: y :: rest)) =
        .arr [truncateValue x,
          .str ("..." ++ toString ((x :: y :: rest).length - 1) ++ " more items")]) ∧
    truncateValue (.arr []) = .arr [] ∧
    (∀ x : TreeValue, truncateValue (.arr [x]) = .arr [truncateValue x]) := by
  refine ⟨fun x y rest => ?_, rfl, fun x => rfl⟩
  simp [truncateValue]

/-- C3 counterexample: on the 201-key object whose first key is literally
the marker key its truncation produces, the program does not keep its
first 200 keys plus one appended marker key (which would give 201
entries); the JS property write overwrites the colliding retained key in
place, leaving 200 entries. -/
theorem c3_collision_counterexample :
    truncateValue (.obj collideObj) ≠
      .obj ((collideObj.take 200).map (fun kv => (kv.1, truncateValue kv.2)) ++
        [("..." ++ toString (collideObj.length - 200) ++ " more properties",
          .str "...")]) := by
  intro h
  have hlen : collideObj.length = 201 := by simp [collideObj]
  have hnle : ¬ collideObj.length ≤ 200 := by omega
  have hL : truncateValue (.obj collideObj) =
      .obj (setKey ((truncatePairs collideObj).take 200)
        ("..." ++ toString (collideObj.length - 200) ++ " more properties")
        (.str "...")) := by
    simp only [truncateValue, if_neg hnle]
  have hkey : ("..." ++ toString (collideObj.length - 200) ++ " more properties") =
      "...1 more properties" := by
    rw [hlen]
    decide
  have hfirst : truncatePairs collideObj =
      ("...1 more properties", TreeValue.null) ::
        truncatePairs ((List.range 200).map (fun i => ("k" ++ toString i, TreeValue.null))) :=
    rfl
  have htake : (truncatePairs collideObj).take 200 =
      ("...1 more properties", TreeValue.null) ::
        (truncatePairs ((List.range 200).map
          (fun i => ("k" ++ toString i, TreeValue.null)))).take 199 := by
    rw [hfirst]
    rfl
  have hset : setKey ((truncatePairs collideObj).take 200) "...1 more properties"
        (.str "...") =
      ("...1 more properties", TreeValue.str "...") ::
        (truncatePairs ((List.range 200).map
          (fun i => ("k" ++ toString i, TreeValue.null)))).take 199 := by
    rw [htake]
    simp [setKey]
  rw [hL, hkey, hset] at h
  injection h with h2
  have hlens := congrArg List.length h2
  simp only [List.length_cons, List.length_take, List.length_append, List.length_map,
    truncatePairs_eq_map, List.length_range, hlen] at hlens
  omega

/-- C3 (amended): the rewrite pass keeps all keys of an object with at
most 200 keys (values bounded in place); with more than 200 keys it keeps
the first 200 keys in order (values bounded) and then assigns the marker
key reporting `K - 200` as a JS property write: the write appends exactly
one new entry when the marker key is absent from the retained keys, and
otherwise overwrites the colliding entry's value in place, preserving the
entry count and key list. -/
theorem c3_object_cap_amended :
    (∀ kvs : List (String × TreeValue), kvs.length ≤ 200 →
      truncateValue (.obj kvs) =
        .obj (kvs.map (fun kv => (kv.1, truncateValue kv.2)))) ∧
    (∀ kvs : List (String × TreeValue), 200 < kvs.length →
      truncateValue (.obj kvs) =
        .obj (setKey ((kvs.take 200).map (fun kv => (kv.1, truncateValue kv.2)))
          ("..." ++ toString (kvs.length - 200) ++ " more properties") (.str "..."))) ∧
    (∀ (l : List (String × TreeValue)) (k : String) (v : TreeValue),
      k ∉ l.map Prod.fst → setKey l k v = l ++ [(k, v)]) ∧
    (∀ (l : List (String × TreeValue)) (k : String) (v : TreeValue),
      k ∈ l.map Prod.fst →
        (setKey l k v).length = l.length ∧
        (setKey l k v).map Prod.fst = l.map Prod.fst) := by
  refine ⟨?_, ?_, setKey_of_not_mem, setKey_mem_length⟩
  · intro kvs h
    simp [truncateValue, if_pos h, truncatePairs_eq_map]
  · intro kvs h
    have hn : ¬ kvs.length ≤ 200 := by omega
    simp [truncateValue, if_neg hn, truncatePairs_eq_map, List.map_take]

/-- C3 witness: the empty object keeps its (zero) keys; the collision
input exercises the over-200 branch; and the two property-write behaviors
are exercised on concrete one-entry objects. -/
theorem c3_object_cap_amended_witness :
    truncateValue (.obj []) =
      .obj (([] : List (String × TreeValue)).map (fun kv => (kv.1, truncateValue kv.2))) ∧
    truncateValue (.obj collideObj) =
      .obj (setKey ((collideObj.take 200).map (fun kv => (kv.1, truncateValue kv.2)))
        ("..." ++ toString (collideObj.length - 200) ++ " more properties") (.str "...")) ∧
    setKey [("a", TreeValue.null)] "b" (.str "x") =
      [("a", TreeValue.null)] ++ [("b", TreeValue.str "x")] ∧
    (setKey [("a", TreeValue.null)] "a" (.str "x")).length =
      [("a", TreeValue.null)].length ∧
    (setKey [("a", TreeValue.null)] "a" (.str "x")).map Prod.fst =
      [("a", TreeValue.null)].map Prod.fst :=
  ⟨c3_object_cap_amended.1 [] (by simp),
   c3_object_cap_amended.2.1 collideObj (by simp [collideObj]),
   c3_object_cap_amended.2.2.1 _ _ _ (by decide),
   (c3_object_cap_amended.2.2.2 _ _ _ (by decide)).1,
   (c3_object_cap_amended.2.2.2 _ _ _ (by decide)).2⟩

/-- C4: the rewrite pass replaces every text scalar longer than 200
characters by a marker made of exactly its first 200 characters and the
count of elided characters, and passes shorter text and every other
scalar through unchanged. -/
theorem c4_string_cap :
    (∀ s : String, 200 < s.length →
      truncateValue (.str s) =
        .str (String.mk (s.data.take 200) ++ "..." ++ toString (s.length - 200) ++
          " more characters")) ∧
    (∀ s : String, s.length ≤ 200 → truncateValue (.str s) = .str s) ∧
    (∀ n : Int, truncateValue (.num n) = .num n) ∧
    (∀ b : Bool, truncateValue (.bool b) = .bool b) ∧
    truncateValue .null = .null := by
  refine ⟨fun s h => ?_, fun s h => ?_, fun n => rfl, fun b => rfl, rfl⟩
  · simp [truncateValue, if_pos h]
  · simp [truncateValue, if_neg (by omega : ¬ 200 < s.length)]

/-- C4 witness: a concrete 201-character string is truncated to its first
200 characters plus the elision count, and a short string is unchanged. -/
theorem c4_string_cap_witness :
    truncateValue (.str (aStr 201)) =
      .str (String.mk ((aStr 201).data.take 200) ++ "..." ++
        toString ((aStr 201).length - 200) ++ " more characters") ∧
    truncateValue (.str "hi") = .str "hi" :=
  ⟨c4_string_cap.1 (aStr 201) (by rw [aStr_length]; omega),
   c4_string_cap.2.1 "hi" (by decide)⟩

/-- C5: the bounding is best-effort, not a hard ceiling — a concrete
TreeValue over the default budget whose bounded form is still over the
budget. -/
theorem c5_best_effort :
    ∃ v : TreeValue, 25000 < (stringifyCompact v).length ∧
      25000 < (stringifyCompact (truncateForOutput v 25000)).length := by
  refine ⟨arrNest 12600, ?_, ?_⟩
  · rw [stringifyCompact_arrNest]; omega
  · have hlen : (stringifyCompact (arrNest 12600)).length = 2 * 12600 + 4 :=
      stringifyCompact_arrNest 12600
    have hgt : ¬ (stringifyCompact (arrNest 12600)).length ≤ 25000 := by omega
    unfold truncateForOutput
    rw [if_neg hgt, truncateValue_arrNest, hlen]
    omega

/-- C7: the bounding engine is total — on every TreeValue and budget it
takes one of its two result forms (the unchanged value on the fast path,
the structurally rewritten value otherwise); in particular it terminates
and has no failure path. -/
theorem c7_total (v : TreeValue) (budget : Nat) :
    truncateForOutput v budget = v ∨ truncateForOutput v budget = truncateValue v := by
  unfold truncateForOutput
  by_cases h : (stringifyCompact v).length ≤ budget
  · exact Or.inl (if_pos h)
  · exact Or.inr (if_neg h)

/-- C8: a tool invocation made while the URI environment variable is
absent and no client exists yet gets the configuration error, with the
registry state unchanged and no driver call issued (so no client is
constructed and nothing is cached). -/
theorem c8_config_fail_fast (st : RegistryState) (dbName : String)
    (hclient : st.mongoClient = none) :
    ensureConnection none st dbName =
      (.error "MONGODB_URI environment variable is not set", st, []) := by
  unfold ensureConnection
  rw [hclient]
  rfl

/-- C8 witness: the fresh registry state with no client and an empty
handle cache yields the configuration error untouched. -/
theorem c8_config_fail_fast_witness :
    ensureConnection none ⟨none, []⟩ "testdb" =
      (.error "MONGODB_URI environment variable is not set", (⟨none, []⟩ : RegistryState),
        []) :=
  c8_config_fail_fast ⟨none, []⟩ "testdb" rfl

/-- C9: passing `limit: 0` to the find-documents handler applies no cap —
the handler's truthiness test skips `cursor.limit`, so all matching
documents are returned and counted in the `Found n document(s)` prefix,
exactly as when `limit` is omitted. -/
theorem c9_find_limit_zero (matching : List TreeValue) :
    findDocumentsResult matching (some 0) = matching ∧
    findDocumentsResult matching (some 0) = findDocumentsResult matching none ∧
    findDocumentsText matching (some 0) =
      "Found " ++ toString matching.length ++ " document(s):\n\n" ++
        formatJsonOutput (.arr matching) := by
  refine ⟨rfl, rfl, ?_⟩
  unfold findDocumentsText
  rfl

/-- C10: bounding is not size-monotone — a concrete TreeValue over the
default budget whose bounded form serializes strictly longer than the
original, because the string-truncation marker appends a suffix longer
than the single character it elides. -/
theorem c10_not_monotone :
    ∃ v : TreeValue, 25000 < (stringifyCompact v).length ∧
      (stringifyCompact v).length <
        (stringifyCompact (truncateForOutput v 25000)).length := by
  refine ⟨strNest 12400, ?_, ?_⟩
  · rw [stringifyCompact_strNest]; omega
  · have hlen : (stringifyCompact (strNest 12400)).length = 2 * 12400 + 203 :=
      stringifyCompact_strNest 12400
    have hgt : ¬ (stringifyCompact (strNest 12400)).length ≤ 25000 := by omega
    unfold truncateForOutput
    rw [if_neg hgt, truncateValue_strNest_length, hlen]
    omega

/-- C6 counterexample: `vBounded` is already bounded (the image of the
bounding pass) yet its compact serialization still exceeds the budget, and
the formatter does not serialize-then-rewrite it: the value is bounded
again first, re-cutting its 220-character string marker to a 221-character
one, so the produced text differs from the rewrite of its own
serialization. -/
theorem c6_formatter_counterexample :
    vBounded = truncateValue (strNest 12400) ∧
    25000 < (stringifyCompact vBounded).length ∧
    formatJsonOutput vBounded ≠
      String.mk (scanProps (scanItems (stringifyIndent 0 vBounded).data)) := by
  have hlen25 : (stringifyCompact vBounded).length = 2 * 12400 + 222 :=
    truncateValue_strNest_length 12400
  have haStr : 200 < (aStr 201).length := by
    rw [aStr_length]
    omega
  have hV1 : vBounded = strTower mkr1 12400 := by
    show truncateValue (strNest 12400) = strTower mkr1 12400
    rw [strNest_eq_strTower, truncateValue_strTower (aStr 201) haStr]
    rfl
  have hmkr1len : 200 < mkr1.length := by decide
  have hV2 : truncateValue vBounded = strTower mkr2 12400 := by
    rw [hV1, truncateValue_strTower mkr1 hmkr1len]
    rfl
  have hTF : truncateForOutput vBounded = truncateValue vBounded := by
    unfold truncateForOutput
    rw [if_neg (by omega : ¬ (stringifyCompact vBounded).length ≤ 25000)]
  refine ⟨rfl, by omega, ?_⟩
  intro h
  have hform : formatJsonOutput vBounded =
      String.mk (scanProps (scanItems (stringifyIndent 0 (truncateForOutput vBounded)).data)) :=
    rfl
  rw [hform, hTF, hV2] at h
  rw [hV1] at h
  have hA : noQuoteDot (stringifyIndent 0 (strTower mkr2 12400)).data = true :=
    noQuoteDot_indent_tower mkr2 (by decide) 12400 0
  have hB : noQuoteDot (stringifyIndent 0 (strTower mkr1 12400)).data = true :=
    noQuoteDot_indent_tower mkr1 (by decide) 12400 0
  rw [scanItems_id_of_noQuoteDot hA, scanProps_id_of_noQuoteDot hA,
    scanItems_id_of_noQuoteDot hB, scanProps_id_of_noQuoteDot hB] at h
  have hlens := congrArg String.length h
  rw [length_mk, length_mk, length_data, length_data] at hlens
  have hLA : (stringifyIndent 0 (strTower mkr2 12400)).length =
      mkr2.length + 2 + 2 * 12400 * 0 + 2 * 12400 * 12400 + 4 * 12400 :=
    indent_tower_length mkr2 (by decide) 12400 0
  have hLB : (stringifyIndent 0 (strTower mkr1 12400)).length =
      mkr1.length + 2 + 2 * 12400 * 0 + 2 * 12400 * 12400 + 4 * 12400 :=
    indent_tower_length mkr1 (by decide) 12400 0
  have hm1 : mkr1.length = 220 := by decide
  have hm2 : mkr2.length = 221 := by decide
  omega

/-- C6 (amended): the formatter always bounds its input and then
serializes the bounded result to indented text and runs the two
marker-rewriting passes; for every TreeValue whose compact serialization
fits the default budget (in particular every value the bounding pass
brought within budget) that is exactly serialize-then-rewrite of the
value itself. Each pass leaves text in which its pattern never occurs
unchanged, and rewrites a serialized quoted marker after a quote-free
prefix into its unquoted inline annotation, continuing on the rest. -/
theorem c6_formatter_amended :
    (∀ v : TreeValue, formatJsonOutput v =
      String.mk (scanProps (scanItems (stringifyIndent 0 (truncateForOutput v)).data))) ∧
    (∀ v : TreeValue, (stringifyCompact v).length ≤ 25000 →
      formatJsonOutput v = String.mk (scanProps (scanItems (stringifyIndent 0 v).data))) ∧
    (∀ s : List Char, (∀ t, t <:+ s → matchItemsAt t = none) → scanItems s = s) ∧
    (∀ s : List Char, (∀ t, t <:+ s → matchPropsAt t = none) → scanProps s = s) ∧
    (∀ pre ds rest : List Char, (∀ c ∈ pre, c ≠ '"') → ds ≠ [] →
      (∀ c ∈ ds, Char.isDigit c) →
      scanItems (pre ++ (quotedItemsMarker ds ++ rest)) =
        pre ++ (itemsReplacement ds ++ scanItems rest)) ∧
    (∀ pre ds rest : List Char, (∀ c ∈ pre, c ≠ '"') → ds ≠ [] →
      (∀ c ∈ ds, Char.isDigit c) →
      scanProps (pre ++ (quotedPropsMarker ds ++ rest)) =
        pre ++ (propsReplacement ds ++ scanProps rest)) := by
  refine ⟨fun v => rfl, ?_, scanItems_id_of_no_match, scanProps_id_of_no_match,
    scanItems_marker_context, scanProps_marker_context⟩
  intro v h
  have hv : truncateForOutput v = v := by
    unfold truncateForOutput
    exact if_pos h
  show String.mk (scanProps (scanItems (stringifyIndent 0 (truncateForOutput v)).data)) = _
  rw [hv]

/-- C6 witness: the formatter's unconditional and in-budget forms on a
small value; marker-free text surviving both passes; and a concrete quoted
array marker and object marker entry rewritten to inline annotations. -/
theorem c6_formatter_amended_witness :
    formatJsonOutput .null =
      String.mk (scanProps (scanItems (stringifyIndent 0 (truncateForOutput .null)).data)) ∧
    formatJsonOutput .null =
      String.mk (scanProps (scanItems (stringifyIndent 0 .null).data)) ∧
    scanItems ("plain text").data = ("plain text").data ∧
    scanProps ("plain text").data = ("plain text").data ∧
    scanItems (quotedItemsMarker ['7'] ++ []) = itemsReplacement ['7'] ++ scanItems [] ∧
    scanProps (quotedPropsMarker ['7'] ++ []) = propsReplacement ['7'] ++ scanProps [] :=
  ⟨c6_formatter_amended.1 .null,
   c6_formatter_amended.2.1 .null (by decide),
   c6_formatter_amended.2.2.1 _ (fun t ht => matchItemsAt_none_of_no_quote (by decide) ht),
   c6_formatter_amended.2.2.2.1 _ (fun t ht => matchPropsAt_none_of_no_quote (by decide) ht),
   c6_formatter_amended.2.2.2.2.1 [] ['7'] [] (by simp) (by decide) (by decide),
   c6_formatter_amended.2.2.2.2.2 [] ['7'] [] (by simp) (by decide) (by decide)⟩

end MongoMcp
